import Mathlib

/-!
# Verification of the nano_tree KdTree (src/nano_tree/kd_tree.hpp)

A shallow embedding of the k-d tree construction and query code:

* coordinates are integers (`Int`); the bound scalar is `WithTop Int`, where
  `⊤` models the `std::numeric_limits<Scalar>::max()` sentinel used as the
  initial search distance;
* point identifiers and positions are `Nat`;
* `std::vector` is `List`, with `List.set`/`List.getD` for element access;
* `std::nth_element` is refined by a full stable insertion sort of the
  sub-range, which satisfies the partition postcondition `nth_element`
  guarantees;
* the recursive tree construction `KdTree::SplitIndices` is given explicit
  fuel, so that its non-termination for `max_leaf_size < 1` is observable as
  `none` for every fuel value;
* the three search visitors (`SearchNn`, `SearchKnn`, `SearchRadius`) are
  records of a visit function and a bound function over an explicit state,
  mirroring the C++ visitor objects.
-/

namespace NanoTree

/-- Coordinate access of the point adapter: coordinate `dim` of the indexed
point `idx` (out-of-range access, impossible for well-formed adapters,
defaults to 0). Mirrors `points_(idx, i)`. -/
def coord (pts : List (List Int)) (idx dim : Nat) : Int :=
  (pts.getD idx []).getD dim 0

/-- Coordinate access for a query point, mirroring `points_(p, i)`. -/
def qcoord (q : List Int) (dim : Nat) : Int :=
  q.getD dim 0

/-- The metric `MetricL2::operator()`: sum over all `dims` dimensions of the squared
coordinate difference between query `q` and indexed point `idx`. -/
def metricL2 (pts : List (List Int)) (dims : Nat) (q : List Int) (idx : Nat) : Int :=
  (List.range dims).foldl
    (fun d i => d + (qcoord q i - coord pts idx i) * (qcoord q i - coord pts idx i)) 0

/-- Insert `a` into a list keeping keys non-decreasing (helper of the
insertion sort refining `std::nth_element`). -/
def insertByKey (key : Nat → Int) (a : Nat) : List Nat → List Nat
  | [] => [a]
  | b :: l => if key a ≤ key b then a :: b :: l else b :: insertByKey key a l

/-- Stable insertion sort by an integer key. A full sort of a sub-range is a
refinement of `std::nth_element` on it: the element at the n-th position is
the one a sorted order puts there, everything before is `≤` it and everything
after is `≥` it. -/
def sortByKey (key : Nat → Int) : List Nat → List Nat
  | [] => []
  | a :: l => insertByKey key a (sortByKey key l)

/-- Sort the sub-range `[off, off+sz)` of `l` in place, leaving the rest of
the list untouched; models the `std::nth_element` call of
`KdTree::SplitIndices` on iterators `[begin+off, begin+off+sz)`. -/
def sortRange (key : Nat → Int) (l : List Nat) (off sz : Nat) : List Nat :=
  l.take off ++ sortByKey key ((l.drop off).take sz) ++ l.drop (off + sz)

/-- The node type `KdTree::Node`: a leaf holds the half-open range `[beginIdx, endIdx)` of
positions into the index permutation; a branch holds the split value, the
split dimension and two children. The C++ union with null/non-null child
pointers is discriminated structurally, exactly as this sum type is. -/
inductive Node where
  | leaf (beginIdx endIdx : Nat)
  | branch (split : Int) (dim : Nat) (left right : Node)
deriving DecidableEq

/-- The builder `KdTree::SplitIndices` with explicit fuel. For a sub-range
`[offset, offset+size)`: if `size ≤ max_leaf_size` make a leaf, otherwise
partition the sub-range around the median of coordinate `dim`, record the
median's coordinate as split value, and recurse on both halves with the next
dimension (round-robin). Returns the node together with the updated index
permutation; `none` models a recursion that exceeds the fuel. -/
def splitIndicesF (pts : List (List Int)) (dims mls : Nat) :
    Nat → Nat → Nat → Nat → List Nat → Option (Node × List Nat)
  | 0, _, _, _, _ => none
  | fuel + 1, offset, size, dim, ind =>
    if size ≤ mls then
      some (Node.leaf offset (offset + size), ind)
    else
      let leftSize := size / 2
      let rightSize := size - leftSize
      let split := offset + leftSize
      let ind1 := sortRange (fun a => coord pts a dim) ind offset size
      let nextDim := if dim + 1 < dims then dim + 1 else 0
      let splitVal := coord pts (ind1.getD split 0) dim
      match splitIndicesF pts dims mls fuel offset leftSize nextDim ind1 with
      | none => none
      | some (ln, ind2) =>
        match splitIndicesF pts dims mls fuel split rightSize nextDim ind2 with
        | none => none
        | some (rn, ind3) => some (Node.branch splitVal dim ln rn, ind3)

/-- The built index: the tree root plus the index permutation
(`root_` and `indices_`). -/
structure KdTree where
  root : Node
  indices : List Nat
deriving DecidableEq

/-- The entry point `KdTree::MakeTree`: initialize the index permutation with `iota`
(identity) and split the full range starting at dimension 0. -/
def makeTree (pts : List (List Int)) (dims mls fuel : Nat) :
    Option (Node × List Nat) :=
  splitIndicesF pts dims mls fuel 0 pts.length 0 (List.range pts.length)

/-- The `KdTree` constructor: build the tree, then check the
`assert(points_.num_points() > 0)` in the constructor body. Fuel
`pts.length + 1` is sufficient for every `mls ≥ 1` (proved below); `none`
models either the failed assert or non-terminating recursion. -/
def buildKdTree (pts : List (List Int)) (dims mls : Nat) : Option KdTree :=
  match makeTree pts dims mls (pts.length + 1) with
  | none => none
  | some (n, ind) => if pts.length > 0 then some ⟨n, ind⟩ else none

/-- A search visitor: `visit` mirrors `operator()(idx, d)` on the visitor
state, `maxB` mirrors `max()`, the current pruning bound. -/
structure Visitor (σ : Type) where
  visit : σ → Nat → Int → σ
  maxB : σ → WithTop Int

/-- The leaf part of the private `KdTree::SearchNn(p, node, visitor)`:
`Scalar const max = visitor->max();` is captured ONCE before the loop, and
each point of the leaf is compared against that snapshot, being reported to
the visitor when its distance is strictly below it. -/
def visitLeaf {σ : Type} (V : Visitor σ) (dist : Nat → Int) (ids : List Nat)
    (s : σ) : σ :=
  let m := V.maxB s
  ids.foldl
    (fun st idx => if m > ((dist idx : Int) : WithTop Int) then V.visit st idx (dist idx) else st)
    s

/-- The identifiers stored in leaf positions `[b, e)`:
`indices_[i]` for `i` in the leaf range. -/
def leafIds (indices : List Nat) (b e : Nat) : List Nat :=
  (indices.drop b).take (e - b)

/-- The private recursive `KdTree::SearchNn(p, node, visitor)`. At a branch
it descends into the half containing the query first and then into the other
half only if `visitor->max() > d * d` for the signed hyperplane distance
`d = query[dim] - split`; at a leaf it runs `visitLeaf`. -/
def searchNode {σ : Type} (V : Visitor σ) (pts : List (List Int)) (dims : Nat)
    (q : List Int) (indices : List Nat) : Node → σ → σ
  | Node.leaf b e, s =>
      visitLeaf V (metricL2 pts dims q) (leafIds indices b e) s
  | Node.branch split dim l r, s =>
      let v := qcoord q dim
      let d := v - split
      if v ≤ split then
        let s1 := searchNode V pts dims q indices l s
        if V.maxB s1 > ((d * d : Int) : WithTop Int) then
          searchNode V pts dims q indices r s1
        else s1
      else
        let s1 := searchNode V pts dims q indices r s
        if V.maxB s1 > ((d * d : Int) : WithTop Int) then
          searchNode V pts dims q indices l s1
        else s1

/-- State of the `internal::SearchNn` visitor: current best identifier and
its distance (`idx_`, `min_`). -/
structure NnState where
  idx : Nat
  min : WithTop Int
deriving DecidableEq

/-- The visitor `internal::SearchNn`: visiting unconditionally overwrites the stored
pair; the bound is the stored distance. -/
def nnVisitor : Visitor NnState where
  visit := fun _ idx d => ⟨idx, (d : WithTop Int)⟩
  maxB := fun s => s.min

/-- Public `KdTree::SearchNn(p)`: run the traversal with a fresh
`SearchNn` visitor (initial distance `⊤`, i.e. `numeric_limits::max()`;
the C++ `idx_` starts uninitialized, modelled as 0) and return
`v.nearest()`. -/
def searchNn (pts : List (List Int)) (dims : Nat) (t : KdTree) (q : List Int) :
    Nat × WithTop Int :=
  let s := searchNode nnVisitor pts dims q t.indices t.root ⟨0, ⊤⟩
  (s.idx, s.min)

/-- State of the `internal::SearchKnn` visitor: `count_` and the `knn_`
vector of (identifier, distance) pairs. -/
structure KnnState where
  count : Nat
  knn : List (Nat × WithTop Int)
deriving DecidableEq

/-- The loop of `SearchKnn::InsertSorted`, indexed by the loop variable:
`for (i = count_ - 1; i > 0; --i)` shifts `knn_[i-1]` to `knn_[i]` while
`knn_[i - 1].second > d`, then writes `(idx, d)` at the final `i`. -/
def insertSortedLoop (idx : Nat) (d : WithTop Int) :
    List (Nat × WithTop Int) → Nat → List (Nat × WithTop Int)
  | knn, 0 => knn.set 0 (idx, d)
  | knn, i + 1 =>
      if (knn.getD i (0, 0)).2 > d then
        insertSortedLoop idx d (knn.set (i + 1) (knn.getD i (0, 0))) i
      else
        knn.set (i + 1) (idx, d)

/-- The visit `internal::SearchKnn::operator()`: increment `count_` while it is below
`k`, then insert the pair by `InsertSorted` starting at index
`count_ - 1`. -/
def knnVisit (k : Nat) (s : KnnState) (idx : Nat) (d : Int) : KnnState :=
  let c := if s.count < k then s.count + 1 else s.count
  ⟨c, insertSortedLoop idx (d : WithTop Int) s.knn (c - 1)⟩

/-- The `internal::SearchKnn` visitor; its bound is `knn_[k_ - 1].second`. -/
def knnVisitor (k : Nat) : Visitor KnnState where
  visit := knnVisit k
  maxB := fun s => (s.knn.getD (k - 1) (0, 0)).2

/-- The `std::vector::resize(k)` semantics: truncate to `k` elements, or pad
with value-initialized pairs (identifier 0, distance 0). -/
def resizePad (l : List (Nat × WithTop Int)) (k : Nat) :
    List (Nat × WithTop Int) :=
  l.take k ++ List.replicate (k - l.length) (0, (0 : WithTop Int))

/-- The `internal::SearchKnn` constructor: resize the caller's vector to `k`
and set `knn_[k_ - 1].second` to the sentinel. The write position
`k_ - 1` is computed in the signed index type; an out-of-range position
(undefined behaviour in C++, reached exactly when `k = 0`) yields `none`. -/
def knnInit (k : Nat) (prev : List (Nat × WithTop Int)) :
    Option (List (Nat × WithTop Int)) :=
  let r := resizePad prev k
  let pos : Int := (k : Int) - 1
  if 0 ≤ pos ∧ pos < (r.length : Int) then
    some (r.set pos.toNat ((r.getD pos.toNat (0, 0)).1, (⊤ : WithTop Int)))
  else
    none

/-- Public `KdTree::SearchKnn(p, k, knn)`: construct the `SearchKnn` visitor
over the caller's vector `prev`, run the traversal, and apply the
destructor's `knn_.resize(count_)`. -/
def searchKnn (pts : List (List Int)) (dims : Nat) (t : KdTree) (q : List Int)
    (k : Nat) (prev : List (Nat × WithTop Int)) :
    Option (List (Nat × WithTop Int)) :=
  match knnInit k prev with
  | none => none
  | some knn0 =>
      let s := searchNode (knnVisitor k) pts dims q t.indices t.root ⟨0, knn0⟩
      some (s.knn.take s.count)

/-- The `internal::SearchRadius` visitor: append every reported pair; the
bound is the fixed squared radius. -/
def radiusVisitor (radius : Int) : Visitor (List (Nat × Int)) where
  visit := fun s idx d => s ++ [(idx, d)]
  maxB := fun _ => (radius : WithTop Int)

/-- Public `KdTree::SearchRadius(p, radius, n)`: the visitor's constructor
clears the caller's vector (`n_.clear()`), then the traversal appends all
reported pairs. -/
def searchRadius (pts : List (List Int)) (dims : Nat) (t : KdTree)
    (q : List Int) (radius : Int) (_prev : List (Nat × Int)) :
    List (Nat × Int) :=
  searchNode (radiusVisitor radius) pts dims q t.indices t.root []

/-- The fields of a constructed `KdTree` object that a query could possibly
touch: the dimension count, the index permutation and the tree (the node
arena's live contents are exactly the nodes reachable from `root`). -/
structure KdTreeState where
  dimensions : Nat
  indices : List Nat
  root : Node
deriving DecidableEq

/-- The query `KdTree::SearchNn(p)` as a state transformer: the method reads the
index state and returns the result together with the state it leaves
behind. -/
def searchNnQuery (pts : List (List Int)) (st : KdTreeState) (q : List Int) :
    (Nat × WithTop Int) × KdTreeState :=
  let s := searchNode nnVisitor pts st.dimensions q st.indices st.root ⟨0, ⊤⟩
  ((s.idx, s.min), st)

/-- The query `KdTree::SearchKnn(p, k, knn)` as a state transformer. -/
def searchKnnQuery (pts : List (List Int)) (st : KdTreeState) (q : List Int)
    (k : Nat) (prev : List (Nat × WithTop Int)) :
    Option (List (Nat × WithTop Int)) × KdTreeState :=
  (match knnInit k prev with
   | none => none
   | some knn0 =>
       let s := searchNode (knnVisitor k) pts st.dimensions q st.indices st.root
         ⟨0, knn0⟩
       some (s.knn.take s.count), st)

/-- The query `KdTree::SearchRadius(p, radius, n)` as a state transformer. -/
def searchRadiusQuery (pts : List (List Int)) (st : KdTreeState) (q : List Int)
    (radius : Int) (_prev : List (Nat × Int)) :
    List (Nat × Int) × KdTreeState :=
  (searchNode (radiusVisitor radius) pts st.dimensions q st.indices st.root [],
   st)

/-- One examined point of a leaf visit: its identifier, its metric distance,
the accumulator's bound at the moment the point is examined, and whether the
point was reported to the accumulator. -/
structure LeafTraceEntry where
  idx : Nat
  dist : Int
  boundAtVisit : WithTop Int
  reported : Bool
deriving DecidableEq

/-- One iteration of the leaf loop, instrumented with its trace: `m` is the
bound captured before the loop (`Scalar const max = visitor->max();`). -/
def leafTraceStep {σ : Type} (V : Visitor σ) (dist : Nat → Int)
    (m : WithTop Int) (p : σ × List LeafTraceEntry) (idx : Nat) :
    σ × List LeafTraceEntry :=
  let d := dist idx
  let rep : Bool := decide (m > ((d : Int) : WithTop Int))
  ((if rep then V.visit p.1 idx d else p.1),
   p.2 ++ [⟨idx, d, V.maxB p.1, rep⟩])

/-- The leaf loop of `KdTree::SearchNn`, instrumented to also record, for
every examined point, the accumulator's bound at the moment of examination
and whether the point was reported. -/
def visitLeafTrace {σ : Type} (V : Visitor σ) (dist : Nat → Int)
    (ids : List Nat) (s : σ) : σ × List LeafTraceEntry :=
  ids.foldl (leafTraceStep V dist (V.maxB s)) (s, [])

/-- The claim that every examined point is reported exactly when its
distance is strictly below the accumulator's bound at the moment that point
is examined. -/
def reportedIffCurrentBound (tr : List LeafTraceEntry) : Prop :=
  ∀ e ∈ tr, e.reported = true ↔ e.boundAtVisit > ((e.dist : Int) : WithTop Int)

instance (tr : List LeafTraceEntry) : Decidable (reportedIffCurrentBound tr) :=
  List.decidableBAll _ tr

/-- The positions (into the index permutation) of all leaf ranges of a tree,
in symmetric order: a leaf `[b, e)` contributes `b, b+1, …, e-1`. -/
def leafPositions : Node → List Nat
  | Node.leaf b e => List.range' b (e - b)
  | Node.branch _ _ l r => leafPositions l ++ leafPositions r

/-- The identifiers reachable under a node: the index permutation read at
every position of every leaf range below it. -/
def reachIds (ind : List Nat) (n : Node) : List Nat :=
  (leafPositions n).map (fun p => ind.getD p 0)

/-- The partition invariant the construction actually establishes: at every
branch, every identifier reachable under the left child has
`coordinate[dim] ≤ split` and every identifier reachable under the right
child has `coordinate[dim] ≥ split`. -/
def boundOk (pts : List (List Int)) (ind : List Nat) : Node → Prop
  | Node.leaf _ _ => True
  | Node.branch split dim l r =>
      (∀ p ∈ leafPositions l, coord pts (ind.getD p 0) dim ≤ split) ∧
      (∀ p ∈ leafPositions r, split ≤ coord pts (ind.getD p 0) dim) ∧
      boundOk pts ind l ∧ boundOk pts ind r

instance boundOkDecidable (pts : List (List Int)) (ind : List Nat) :
    (n : Node) → Decidable (boundOk pts ind n)
  | Node.leaf _ _ => Decidable.isTrue trivial
  | Node.branch _split _dim l r =>
      have _hl : Decidable (boundOk pts ind l) := boundOkDecidable pts ind l
      have _hr : Decidable (boundOk pts ind r) := boundOkDecidable pts ind r
      inferInstanceAs (Decidable (_ ∧ _ ∧ _ ∧ _))

/-- The partition property as the claim states it, with a strict inequality
on the right child. -/
def strictBoundOk (pts : List (List Int)) (ind : List Nat) : Node → Prop
  | Node.leaf _ _ => True
  | Node.branch split dim l r =>
      (∀ p ∈ leafPositions l, coord pts (ind.getD p 0) dim ≤ split) ∧
      (∀ p ∈ leafPositions r, split < coord pts (ind.getD p 0) dim) ∧
      strictBoundOk pts ind l ∧ strictBoundOk pts ind r

instance strictBoundOkDecidable (pts : List (List Int)) (ind : List Nat) :
    (n : Node) → Decidable (strictBoundOk pts ind n)
  | Node.leaf _ _ => Decidable.isTrue trivial
  | Node.branch _split _dim l r =>
      have _hl : Decidable (strictBoundOk pts ind l) :=
        strictBoundOkDecidable pts ind l
      have _hr : Decidable (strictBoundOk pts ind r) :=
        strictBoundOkDecidable pts ind r
      inferInstanceAs (Decidable (_ ∧ _ ∧ _ ∧ _))

/-- All split dimensions stored in the tree are below the dimension count. -/
def dimsOk (dims : Nat) : Node → Prop
  | Node.leaf _ _ => True
  | Node.branch _ dim l r => dim < dims ∧ dimsOk dims l ∧ dimsOk dims r

/-- The sub-range `[off, off+sz)` of a list. -/
def slice (l : List Nat) (off sz : Nat) : List Nat :=
  (l.drop off).take sz

/-- What `SplitIndices` does to the index permutation on the sub-range
`[off, off+sz)`: length preserved, everything outside the sub-range
untouched, the sub-range permuted. -/
def rangePerm (off sz : Nat) (ind ind' : List Nat) : Prop :=
  ind'.length = ind.length ∧ ind'.take off = ind.take off ∧
  ind'.drop (off + sz) = ind.drop (off + sz) ∧
  (slice ind' off sz).Perm (slice ind off sz)

/-- The part of two `SearchKnn` visitor states that the search can observe:
same count, vectors of length `k` agreeing below `count` and in the bound
entry `knn_[k-1].second`. -/
def knnEquiv (k : Nat) (a b : KnnState) : Prop :=
  a.count = b.count ∧ a.count ≤ k ∧
  a.knn.length = k ∧ b.knn.length = k ∧
  (∀ p < a.count, a.knn[p]? = b.knn[p]?) ∧
  (a.knn.getD (k - 1) (0, 0)).2 = (b.knn.getD (k - 1) (0, 0)).2

/-- Brute-force distances of all indexed points to the query. -/
def bruteDistances (pts : List (List Int)) (dims : Nat) (q : List Int) :
    List Int :=
  (List.range pts.length).map (metricL2 pts dims q)

/-- Brute-force k-nearest: sort all identifiers by distance, keep the first
`k`, pair each with its distance. -/
def bruteKnn (pts : List (List Int)) (dims : Nat) (q : List Int) (k : Nat) :
    List (Nat × Int) :=
  ((sortByKey (metricL2 pts dims q) (List.range pts.length)).take k).map
    (fun i => (i, metricL2 pts dims q i))

/-- Brute-force radius query: all identifiers at distance strictly below
`radius`, paired with their distances, in identifier order. -/
def bruteRadius (pts : List (List Int)) (dims : Nat) (q : List Int)
    (radius : Int) : List (Nat × Int) :=
  ((List.range pts.length).filter (fun i => metricL2 pts dims q i < radius)).map
    (fun i => (i, metricL2 pts dims q i))

/-! ## Helper lemmas -/

theorem slice_def (l : List Nat) (off sz : Nat) :
    slice l off sz = (l.drop off).take sz := rfl

theorem insertByKey_perm (key : Nat → Int) (a : Nat) (l : List Nat) :
    (insertByKey key a l).Perm (a :: l) := by
  induction l with
  | nil => simp [insertByKey]
  | cons b t ih =>
    by_cases h : key a ≤ key b
    · simp [insertByKey, h]
    · simp only [insertByKey, if_neg h]
      exact (ih.cons b).trans (List.Perm.swap a b t)

theorem sortByKey_perm (key : Nat → Int) (l : List Nat) :
    (sortByKey key l).Perm l := by
  induction l with
  | nil => simp [sortByKey]
  | cons a t ih =>
    exact (insertByKey_perm key a (sortByKey key t)).trans (ih.cons a)

theorem insertByKey_pairwise (key : Nat → Int) (a : Nat) (l : List Nat)
    (h : List.Pairwise (fun x y => key x ≤ key y) l) :
    List.Pairwise (fun x y => key x ≤ key y) (insertByKey key a l) := by
  induction l with
  | nil => simp [insertByKey]
  | cons b t ih =>
    rcases List.pairwise_cons.mp h with ⟨hb, ht⟩
    by_cases hab : key a ≤ key b
    · simp only [insertByKey, if_pos hab]
      refine List.pairwise_cons.mpr ⟨?_, h⟩
      intro c hc
      rcases List.mem_cons.mp hc with rfl | hc
      · exact hab
      · exact le_trans hab (hb c hc)
    · simp only [insertByKey, if_neg hab]
      refine List.pairwise_cons.mpr ⟨?_, ih ht⟩
      intro c hc
      rcases List.mem_cons.mp ((insertByKey_perm key a t).mem_iff.mp hc) with
        rfl | hc2
      · exact le_of_lt (lt_of_not_le hab)
      · exact hb c hc2

theorem sortByKey_pairwise (key : Nat → Int) (l : List Nat) :
    List.Pairwise (fun x y => key x ≤ key y) (sortByKey key l) := by
  induction l with
  | nil => simp [sortByKey]
  | cons a t ih => exact insertByKey_pairwise key a (sortByKey key t) ih

theorem sortByKey_length (key : Nat → Int) (l : List Nat) :
    (sortByKey key l).length = l.length :=
  (sortByKey_perm key l).length_eq

theorem slice_append (l : List Nat) (off a b : Nat) :
    slice l off (a + b) = slice l off a ++ slice l (off + a) b := by
  simp only [slice_def]
  rw [List.take_add]
  congr 1
  rw [List.drop_drop]

theorem length_slice (l : List Nat) (off sz : Nat) (h : off + sz ≤ l.length) :
    (slice l off sz).length = sz := by
  simp only [slice_def]
  rw [List.length_take, List.length_drop]
  omega

theorem slice_full (l : List Nat) : slice l 0 l.length = l := by
  simp [slice_def]

theorem getD_eq_of_take_eq {l l' : List Nat} {m p : Nat}
    (h : l.take m = l'.take m) (hp : p < m) : l.getD p 0 = l'.getD p 0 := by
  rw [List.getD_eq_getElem?_getD, List.getD_eq_getElem?_getD]
  have h1 : (l.take m)[p]? = (l'.take m)[p]? := by rw [h]
  rw [List.getElem?_take, List.getElem?_take, if_pos hp, if_pos hp] at h1
  rw [h1]

theorem getD_eq_of_drop_eq {l l' : List Nat} {m p : Nat}
    (h : l.drop m = l'.drop m) (hp : m ≤ p) : l.getD p 0 = l'.getD p 0 := by
  rw [List.getD_eq_getElem?_getD, List.getD_eq_getElem?_getD]
  have h1 : (l.drop m)[p - m]? = (l'.drop m)[p - m]? := by rw [h]
  rw [List.getElem?_drop, List.getElem?_drop] at h1
  have hm : m + (p - m) = p := by omega
  rw [hm] at h1
  rw [h1]

theorem getElem?_slice {l : List Nat} {off sz p : Nat} (hp : p < sz) :
    (slice l off sz)[p]? = l[off + p]? := by
  simp only [slice_def]
  rw [List.getElem?_take, if_pos hp, List.getElem?_drop]

theorem getD_mem_slice {l : List Nat} {off sz p : Nat}
    (h1 : off ≤ p) (h2 : p < off + sz) (h3 : p < l.length) :
    l.getD p 0 ∈ slice l off sz := by
  have hval : (slice l off sz)[p - off]? = some (l.getD p 0) := by
    rw [getElem?_slice (by omega)]
    have h4 : off + (p - off) = p := by omega
    rw [h4, List.getElem?_eq_getElem h3, List.getD_eq_getElem l 0 h3]
  rcases List.getElem?_eq_some.mp hval with ⟨h5, h6⟩
  exact h6 ▸ List.getElem_mem h5

theorem take_sortRange (key : Nat → Int) (l : List Nat) (off sz : Nat)
    (h : off ≤ l.length) :
    (sortRange key l off sz).take off = l.take off := by
  unfold sortRange
  rw [List.append_assoc, List.take_append_of_le_length (by
    rw [List.length_take]; omega)]
  rw [List.take_take]
  simp

theorem drop_sortRange (key : Nat → Int) (l : List Nat) (off sz : Nat)
    (h : off + sz ≤ l.length) :
    (sortRange key l off sz).drop (off + sz) = l.drop (off + sz) := by
  unfold sortRange
  have h1 : (l.take off).length = off := by rw [List.length_take]; omega
  have h2 : (sortByKey key ((l.drop off).take sz)).length = sz := by
    rw [sortByKey_length, List.length_take, List.length_drop]; omega
  rw [List.append_assoc, List.drop_append_eq_append_drop,
    List.drop_append_eq_append_drop]
  rw [List.drop_eq_nil_of_le (by omega), List.drop_eq_nil_of_le (by omega)]
  simp only [List.nil_append]
  rw [h1, h2]
  have h3 : off + sz - off - sz = 0 := by omega
  rw [h3, List.drop_zero]

theorem slice_sortRange (key : Nat → Int) (l : List Nat) (off sz : Nat)
    (h : off + sz ≤ l.length) :
    slice (sortRange key l off sz) off sz = sortByKey key (slice l off sz) := by
  simp only [slice_def]
  unfold sortRange
  have h1 : (l.take off).length = off := by rw [List.length_take]; omega
  have h2 : (sortByKey key ((l.drop off).take sz)).length = sz := by
    rw [sortByKey_length, List.length_take, List.length_drop]; omega
  rw [List.append_assoc, List.drop_append_eq_append_drop,
    List.drop_eq_nil_of_le (by omega), h1]
  have h3 : off - off = 0 := by omega
  rw [h3, List.drop_zero, List.nil_append,
    List.take_append_of_le_length (by omega), List.take_of_length_le (by omega)]

theorem length_sortRange (key : Nat → Int) (l : List Nat) (off sz : Nat)
    (h : off + sz ≤ l.length) :
    (sortRange key l off sz).length = l.length := by
  unfold sortRange
  simp only [List.length_append, List.length_take, List.length_drop,
    sortByKey_length]
  omega

theorem sortRange_rangePerm (key : Nat → Int) (l : List Nat) (off sz : Nat)
    (h : off + sz ≤ l.length) :
    rangePerm off sz l (sortRange key l off sz) := by
  refine ⟨length_sortRange key l off sz h, take_sortRange key l off sz (by omega),
    drop_sortRange key l off sz h, ?_⟩
  rw [slice_sortRange key l off sz h]
  exact sortByKey_perm key (slice l off sz)

theorem rangePerm_refl (off sz : Nat) (ind : List Nat) :
    rangePerm off sz ind ind :=
  ⟨rfl, rfl, rfl, List.Perm.refl _⟩

theorem rangePerm_trans {off sz : Nat} {a b c : List Nat}
    (h1 : rangePerm off sz a b) (h2 : rangePerm off sz b c) :
    rangePerm off sz a c := by
  obtain ⟨l1, t1, d1, p1⟩ := h1
  obtain ⟨l2, t2, d2, p2⟩ := h2
  exact ⟨l2.trans l1, t2.trans t1, d2.trans d1, p2.trans p1⟩

theorem rangePerm_widen_left {off a b : Nat} {ind ind' : List Nat}
    (h : rangePerm off a ind ind') : rangePerm off (a + b) ind ind' := by
  obtain ⟨hlen, htake, hdrop, hperm⟩ := h
  refine ⟨hlen, htake, ?_, ?_⟩
  · have e1 : ind'.drop (off + (a + b)) = (ind'.drop (off + a)).drop b := by
      rw [List.drop_drop]; congr 1; omega
    have e2 : ind.drop (off + (a + b)) = (ind.drop (off + a)).drop b := by
      rw [List.drop_drop]; congr 1; omega
    rw [e1, e2, hdrop]
  · rw [slice_append, slice_append]
    have heq : slice ind' (off + a) b = slice ind (off + a) b := by
      simp only [slice_def]; rw [hdrop]
    rw [heq]
    exact hperm.append (List.Perm.refl _)

theorem rangePerm_widen_right (off a : Nat) {b : Nat} {ind ind' : List Nat}
    (h : rangePerm (off + a) b ind ind') : rangePerm off (a + b) ind ind' := by
  obtain ⟨hlen, htake, hdrop, hperm⟩ := h
  refine ⟨hlen, ?_, ?_, ?_⟩
  · have e1 : ind'.take off = (ind'.take (off + a)).take off := by
      rw [List.take_take]; congr 1; omega
    have e2 : ind.take off = (ind.take (off + a)).take off := by
      rw [List.take_take]; congr 1; omega
    rw [e1, e2, htake]
  · have e : off + (a + b) = off + a + b := by omega
    rw [e]; exact hdrop
  · rw [slice_append, slice_append]
    have heq : slice ind' off a = slice ind off a := by
      simp only [slice_def]
      rw [List.take_drop, List.take_drop, htake]
    rw [heq]
    exact (List.Perm.refl _).append hperm

/-- In a list sorted by `key`, everything before position `m` has key at
most that of the element at `m`, and everything from position `m` on has at
least that key. -/
theorem sorted_slice_bounds (key : Nat → Int) (s : List Nat) (m : Nat)
    (hs : List.Pairwise (fun x y => key x ≤ key y) s) (hm : m < s.length) :
    (∀ x ∈ s.take m, key x ≤ key (s.getD m 0)) ∧
    (∀ x ∈ s.drop m, key (s.getD m 0) ≤ key x) := by
  have hsplit : s.take m ++ s.drop m = s := List.take_append_drop m s
  rw [← hsplit] at hs
  rcases List.pairwise_append.mp hs with ⟨_h1, h2, h3⟩
  cases hd : s.drop m with
  | nil =>
    exfalso
    have := List.length_drop m s
    rw [hd] at this
    simp at this
    omega
  | cons a t =>
    have ha : s.getD m 0 = a := by
      rw [List.getD_eq_getElem?_getD]
      have : (s.drop m)[0]? = s[m + 0]? := List.getElem?_drop s m 0
      rw [hd] at this
      simp at this
      rw [← this]
      rfl
    rw [hd] at h2 h3
    constructor
    · intro x hx
      rw [ha]
      exact h3 x hx a (List.mem_cons_self a t)
    · intro x hx
      rw [ha]
      rcases List.mem_cons.mp hx with rfl | hx2
      · exact le_refl _
      · exact (List.pairwise_cons.mp h2).1 x hx2

/-- The invariant `boundOk` only looks at the index permutation through the positions of
the node's leaf ranges. -/
theorem boundOk_congr {pts : List (List Int)} {ind ind' : List Nat} :
    ∀ {n : Node},
      (∀ p ∈ leafPositions n, ind.getD p 0 = ind'.getD p 0) →
      boundOk pts ind n → boundOk pts ind' n := by
  intro n
  induction n with
  | leaf b e => intro _ _; trivial
  | branch split dim l r ihl ihr =>
    intro h hb
    obtain ⟨h1, h2, h3, h4⟩ := hb
    refine ⟨?_, ?_, ?_, ?_⟩
    · intro p hp
      rw [← h p (by simp [leafPositions, List.mem_append]; exact Or.inl hp)]
      exact h1 p hp
    · intro p hp
      rw [← h p (by simp [leafPositions, List.mem_append]; exact Or.inr hp)]
      exact h2 p hp
    · exact ihl (fun p hp => h p (by
        simp [leafPositions, List.mem_append]
        exact Or.inl hp)) h3
    · exact ihr (fun p hp => h p (by
        simp [leafPositions, List.mem_append]
        exact Or.inr hp)) h4

/-- With `max_leaf_size = 0` and a single point, `SplitIndices` recurses on
a sub-range of size 1 forever: no amount of fuel produces a tree. -/
theorem splitIndicesF_mls_zero_diverges :
    ∀ fuel : Nat, splitIndicesF [[0]] 1 0 fuel 0 1 0 [0] = none := by
  intro fuel
  induction fuel with
  | zero => rfl
  | succ n ih =>
    cases n with
    | zero => rfl
    | succ m =>
      have h1 : splitIndicesF [[0]] 1 0 (m + 2) 0 1 0 [0] =
          (match splitIndicesF [[0]] 1 0 (m + 1) 0 1 0 [0] with
           | none => none
           | some (rn, ind3) =>
               some (Node.branch 0 0 (Node.leaf 0 0) rn, ind3)) := rfl
      rw [h1, ih]

/-- The main construction invariant: a successful `SplitIndices` call
permutes only its sub-range of the index permutation, its leaves cover
exactly the positions `[offset, offset+size)` in order, the partition bound
invariant holds on the final permutation, and all stored split dimensions
are below `dims` whenever the starting dimension is. -/
theorem splitIndicesF_main :
    ∀ (fuel : Nat) (pts : List (List Int)) (dims mls off sz dim : Nat)
      (ind : List Nat) (n : Node) (ind' : List Nat),
      splitIndicesF pts dims mls fuel off sz dim ind = some (n, ind') →
      off + sz ≤ ind.length →
      rangePerm off sz ind ind' ∧ leafPositions n = List.range' off sz ∧
      boundOk pts ind' n ∧ (dim < dims → dimsOk dims n) := by
  intro fuel
  induction fuel with
  | zero =>
    intro pts dims mls off sz dim ind n ind' h _
    exact absurd h (by simp [splitIndicesF])
  | succ f ih =>
    intro pts dims mls off sz dim ind n ind' h hlen
    simp only [splitIndicesF] at h
    split at h
    · -- leaf case: size ≤ max_leaf_size
      simp only [Option.some.injEq, Prod.mk.injEq] at h
      obtain ⟨hn, hind⟩ := h
      subst hn; subst hind
      refine ⟨rangePerm_refl off sz ind, ?_, trivial, fun _ => trivial⟩
      simp only [leafPositions]
      congr 1
      omega
    · -- branch case
      next hsz =>
      split at h
      · exact absurd h (by simp)
      · next pL ln ind2 hL =>
        split at h
        · exact absurd h (by simp)
        · next pR rn ind3 hR =>
          simp only [Option.some.injEq, Prod.mk.injEq] at h
          obtain ⟨hn, hind⟩ := h
          subst hn; subst hind
          have hszpos : 0 < sz := by omega
          have h1 : rangePerm off sz ind
              (sortRange (fun a => coord pts a dim) ind off sz) :=
            sortRange_rangePerm (fun a => coord pts a dim) ind off sz hlen
          have hind1len :
              (sortRange (fun a => coord pts a dim) ind off sz).length =
                ind.length := h1.1
          have ihL := ih pts dims mls off (sz / 2)
            (if dim + 1 < dims then dim + 1 else 0)
            (sortRange (fun a => coord pts a dim) ind off sz) ln ind2 hL
            (by omega)
          obtain ⟨rpL, posL, boL, dimL⟩ := ihL
          have hind2len : ind2.length = ind.length := by
            have := rpL.1; omega
          have ihR := ih pts dims mls (off + sz / 2) (sz - sz / 2)
            (if dim + 1 < dims then dim + 1 else 0) ind2 rn ind3 hR
            (by omega)
          obtain ⟨rpR, posR, boR, dimR⟩ := ihR
          have hind3len : ind3.length = ind.length := by
            have := rpR.1; omega
          -- widen the two sub-range permutations to the full range
          have w1 : rangePerm off sz
              (sortRange (fun a => coord pts a dim) ind off sz) ind2 := by
            have hw := rangePerm_widen_left (b := sz - sz / 2) rpL
            rwa [show sz / 2 + (sz - sz / 2) = sz from by omega] at hw
          have w2 : rangePerm off sz ind2 ind3 := by
            have hw := rangePerm_widen_right off (sz / 2) rpR
            rwa [show sz / 2 + (sz - sz / 2) = sz from by omega] at hw
          -- the sorted sub-range and its split element
          have hs : slice (sortRange (fun a => coord pts a dim) ind off sz)
              off sz = sortByKey (fun a => coord pts a dim) (slice ind off sz) :=
            slice_sortRange (fun a => coord pts a dim) ind off sz hlen
          have sorted : List.Pairwise
              (fun x y => coord pts x dim ≤ coord pts y dim)
              (slice (sortRange (fun a => coord pts a dim) ind off sz) off sz) := by
            rw [hs]
            exact sortByKey_pairwise (fun a => coord pts a dim)
              (slice ind off sz)
          have hslen :
              (slice (sortRange (fun a => coord pts a dim) ind off sz)
                off sz).length = sz :=
            length_slice _ off sz (by omega)
          have hdec : slice (sortRange (fun a => coord pts a dim) ind off sz)
              off sz =
              slice (sortRange (fun a => coord pts a dim) ind off sz)
                off (sz / 2) ++
              slice (sortRange (fun a => coord pts a dim) ind off sz)
                (off + sz / 2) (sz - sz / 2) := by
            have hsa := slice_append
              (sortRange (fun a => coord pts a dim) ind off sz) off
              (sz / 2) (sz - sz / 2)
            rwa [show sz / 2 + (sz - sz / 2) = sz from by omega] at hsa
          have bounds := sorted_slice_bounds (fun a => coord pts a dim)
            (slice (sortRange (fun a => coord pts a dim) ind off sz) off sz)
            (sz / 2) sorted (by omega)
          have hgetD :
              (slice (sortRange (fun a => coord pts a dim) ind off sz)
                off sz).getD (sz / 2) 0 =
              (sortRange (fun a => coord pts a dim) ind off sz).getD
                (off + sz / 2) 0 := by
            rw [List.getD_eq_getElem?_getD, List.getD_eq_getElem?_getD,
              getElem?_slice (by omega)]
          have hAlen :
              (slice (sortRange (fun a => coord pts a dim) ind off sz)
                off (sz / 2)).length = sz / 2 :=
            length_slice _ off (sz / 2) (by omega)
          have htakeA :
              (slice (sortRange (fun a => coord pts a dim) ind off sz)
                off sz).take (sz / 2) =
              slice (sortRange (fun a => coord pts a dim) ind off sz)
                off (sz / 2) := by
            rw [hdec, List.take_append_of_le_length (by omega),
              List.take_of_length_le (by omega)]
          have hdropA :
              (slice (sortRange (fun a => coord pts a dim) ind off sz)
                off sz).drop (sz / 2) =
              slice (sortRange (fun a => coord pts a dim) ind off sz)
                (off + sz / 2) (sz - sz / 2) := by
            rw [hdec, List.drop_append_eq_append_drop,
              List.drop_eq_nil_of_le (by omega), hAlen]
            simp
          refine ⟨rangePerm_trans (rangePerm_trans h1 w1) w2, ?_, ?_, ?_⟩
          · -- leaf positions cover the range in order
            simp only [leafPositions]
            rw [posL, posR]
            have hra := List.range'_append off (sz / 2) (sz - sz / 2) 1
            rw [show off + 1 * (sz / 2) = off + sz / 2 from by omega,
              show (sz - sz / 2) + sz / 2 = sz from by omega] at hra
            exact hra
          · -- the bound invariant at this branch and below
            simp only [boundOk]
            refine ⟨?_, ?_, ?_, boR⟩
            · intro p hp
              rw [posL, List.mem_range'_1] at hp
              have e3 : ind3.getD p 0 = ind2.getD p 0 :=
                getD_eq_of_take_eq rpR.2.1 (by omega)
              rw [e3]
              have m1 : ind2.getD p 0 ∈ slice ind2 off (sz / 2) :=
                getD_mem_slice (by omega) (by omega) (by omega)
              have m2 : ind2.getD p 0 ∈
                  slice (sortRange (fun a => coord pts a dim) ind off sz)
                    off (sz / 2) :=
                (rpL.2.2.2).mem_iff.mp m1
              have := bounds.1 (ind2.getD p 0) (by rw [htakeA]; exact m2)
              rwa [hgetD] at this
            · intro p hp
              rw [posR, List.mem_range'_1] at hp
              have m1 : ind3.getD p 0 ∈
                  slice ind3 (off + sz / 2) (sz - sz / 2) :=
                getD_mem_slice (by omega) (by omega) (by omega)
              have m2 : ind3.getD p 0 ∈
                  slice ind2 (off + sz / 2) (sz - sz / 2) :=
                (rpR.2.2.2).mem_iff.mp m1
              have heq2 : slice ind2 (off + sz / 2) (sz - sz / 2) =
                  slice (sortRange (fun a => coord pts a dim) ind off sz)
                    (off + sz / 2) (sz - sz / 2) := by
                simp only [slice_def]
                rw [rpL.2.2.1]
              rw [heq2] at m2
              have := bounds.2 (ind3.getD p 0) (by rw [hdropA]; exact m2)
              rwa [hgetD] at this
            · -- the left child's invariant survives the right recursion
              refine boundOk_congr ?_ boL
              intro p hp
              rw [posL, List.mem_range'_1] at hp
              exact (getD_eq_of_take_eq rpR.2.1 (by omega)).symm
          · -- split dimensions stay in range
            intro hdim
            simp only [dimsOk]
            have hnd : (if dim + 1 < dims then dim + 1 else 0) < dims := by
              split <;> omega
            exact ⟨hdim, dimL hnd, dimR hnd⟩

/-- Reading every position of a full-length position range out of a list
reproduces the list. -/
theorem map_getD_range' (l : List Nat) (n : Nat) (h : l.length = n) :
    (List.range' 0 n).map (fun p => l.getD p 0) = l := by
  apply List.ext_getElem?
  intro p
  rw [List.getElem?_map]
  by_cases hp : p < n
  · rw [List.getElem?_range' 0 1 hp]
    simp only [Option.map_some']
    have hpl : p < l.length := by omega
    rw [List.getElem?_eq_getElem hpl]
    simp only [Option.some.injEq]
    rw [show 0 + 1 * p = p from by omega]
    exact List.getD_eq_getElem l 0 hpl
  · rw [List.getElem?_eq_none (by rw [List.length_range']; omega),
      List.getElem?_eq_none (by omega)]
    rfl

/-- A `rangePerm` over the whole list is a plain permutation. -/
theorem rangePerm_full_perm {N : Nat} {l l' : List Nat}
    (h : rangePerm 0 N l l') (hlen : l.length = N) : l'.Perm l := by
  have hp := h.2.2.2
  have hl' : l'.length = l.length := h.1
  have e1 : slice l 0 N = l := by
    subst hlen; exact slice_full l
  have e2 : slice l' 0 N = l' := by
    have : l'.length = N := by omega
    rw [← this]; exact slice_full l'
  rwa [e1, e2] at hp

/-- Destructuring a successful construction: all invariants of
`splitIndicesF_main` transported to the built `KdTree`, plus the positivity
the constructor's assert guarantees. -/
theorem buildKdTree_inv (pts : List (List Int)) (dims mls : Nat) (t : KdTree)
    (h : buildKdTree pts dims mls = some t) :
    rangePerm 0 pts.length (List.range pts.length) t.indices ∧
    leafPositions t.root = List.range' 0 pts.length ∧
    boundOk pts t.indices t.root ∧ (0 < dims → dimsOk dims t.root) ∧
    0 < pts.length := by
  unfold buildKdTree makeTree at h
  split at h
  · exact absurd h (by simp)
  · next p n ind heq =>
    split at h
    · next hpos =>
      simp only [Option.some.injEq] at h
      subst h
      have hmain := splitIndicesF_main (pts.length + 1) pts dims mls 0
        pts.length 0 (List.range pts.length) n ind heq
        (by rw [List.length_range]; omega)
      obtain ⟨h1, h2, h3, h4⟩ := hmain
      exact ⟨h1, h2, h3, fun hd => h4 hd, hpos⟩
    · exact absurd h (by simp)

theorem foldl_add_map (f : Nat → Int) :
    ∀ (l : List Nat) (acc : Int),
      l.foldl (fun d i => d + f i) acc = acc + (l.map f).sum := by
  intro l
  induction l with
  | nil => intro acc; simp
  | cons a t ih =>
    intro acc
    simp only [List.foldl_cons, List.map_cons, List.sum_cons]
    rw [ih]
    ring

theorem metricL2_eq_sum (pts : List (List Int)) (dims : Nat) (q : List Int)
    (idx : Nat) :
    metricL2 pts dims q idx = ((List.range dims).map
      (fun i => (qcoord q i - coord pts idx i) *
        (qcoord q i - coord pts idx i))).sum := by
  unfold metricL2
  rw [foldl_add_map (fun i => (qcoord q i - coord pts idx i) *
    (qcoord q i - coord pts idx i)) (List.range dims) 0]
  ring

/-- The squared L2 metric dominates each single dimension's squared
difference. -/
theorem metric_term_le (pts : List (List Int)) (dims : Nat) (q : List Int)
    (idx dim : Nat) (hdim : dim < dims) :
    (qcoord q dim - coord pts idx dim) * (qcoord q dim - coord pts idx dim) ≤
      metricL2 pts dims q idx := by
  rw [metricL2_eq_sum]
  apply List.single_le_sum
  · intro x hx
    rcases List.mem_map.mp hx with ⟨i, _, rfl⟩
    exact mul_self_nonneg _
  · exact List.mem_map.mpr ⟨dim, List.mem_range.mpr hdim, rfl⟩

theorem sq_le_far_right {v s c : Int} (h1 : v ≤ s) (h2 : s ≤ c) :
    (v - s) * (v - s) ≤ (v - c) * (v - c) := by nlinarith

theorem sq_le_far_left {v s c : Int} (h1 : c ≤ s) (h2 : s ≤ v) :
    (v - s) * (v - s) ≤ (v - c) * (v - c) := by nlinarith

/-- The leaf loop of the radius visitor is a fold appending exactly the
points below the fixed radius. -/
theorem visitLeaf_radius_fold (radius : Int) (dist : Nat → Int)
    (ids : List Nat) (s : List (Nat × Int)) :
    visitLeaf (radiusVisitor radius) dist ids s =
      ids.foldl (fun st idx =>
        if ((radius : Int) : WithTop Int) > ((dist idx : Int) : WithTop Int)
        then st ++ [(idx, dist idx)] else st) s := rfl

theorem radius_fold (radius : Int) (dist : Nat → Int) :
    ∀ (ids : List Nat) (s : List (Nat × Int)),
      ids.foldl (fun st idx =>
        if ((radius : Int) : WithTop Int) > ((dist idx : Int) : WithTop Int)
        then st ++ [(idx, dist idx)] else st) s =
      s ++ (ids.filter (fun i => dist i < radius)).map
        (fun i => (i, dist i)) := by
  intro ids
  induction ids with
  | nil => intro s; simp
  | cons a t ih =>
    intro s
    simp only [List.foldl_cons, List.filter_cons]
    by_cases h : dist a < radius
    · rw [if_pos (by exact_mod_cast h), if_pos (by simpa using h), ih]
      simp
    · rw [if_neg (by exact_mod_cast h), if_neg (by simpa using h)]
      exact ih s

theorem map_getD_range'_slice (l : List Nat) (b k : Nat)
    (h : b + k ≤ l.length) :
    (List.range' b k).map (fun p => l.getD p 0) = slice l b k := by
  apply List.ext_getElem?
  intro p
  rw [List.getElem?_map]
  by_cases hp : p < k
  · rw [List.getElem?_range' b 1 hp, getElem?_slice hp]
    simp only [Option.map_some']
    have he : b + 1 * p = b + p := by omega
    rw [he]
    have hbp : b + p < l.length := by omega
    rw [List.getElem?_eq_getElem hbp]
    simp only [Option.some.injEq]
    exact List.getD_eq_getElem l 0 hbp
  · rw [List.getElem?_eq_none (by rw [List.length_range']; omega),
      List.getElem?_eq_none (by
        simp only [slice_def, List.length_take, List.length_drop]
        omega)]
    rfl

/-- Correctness of the branch-and-bound radius traversal: on any subtree
satisfying the construction invariants, it appends exactly (a permutation
of) the reachable identifiers strictly within the radius, each paired with
its distance.  Pruned subtrees cannot contain such points because the
partition bound forces their metric at least the squared hyperplane
distance. -/
theorem searchNode_radius (pts : List (List Int)) (dims : Nat) (q : List Int)
    (ind : List Nat) (radius : Int) :
    ∀ (n : Node) (s : List (Nat × Int)),
      boundOk pts ind n → dimsOk dims n →
      (∀ p ∈ leafPositions n, p < ind.length) →
      ∃ out,
        searchNode (radiusVisitor radius) pts dims q ind n s = s ++ out ∧
        out.Perm (((reachIds ind n).filter
          (fun i => metricL2 pts dims q i < radius)).map
          (fun i => (i, metricL2 pts dims q i))) := by
  intro n
  induction n with
  | leaf b e =>
    intro s _ _ hpos
    refine ⟨((leafIds ind b e).filter
      (fun i => metricL2 pts dims q i < radius)).map
      (fun i => (i, metricL2 pts dims q i)), ?_, ?_⟩
    · simp only [searchNode]
      rw [visitLeaf_radius_fold, radius_fold]
    · have hcov : reachIds ind (Node.leaf b e) = leafIds ind b e := by
        unfold reachIds leafIds
        simp only [leafPositions]
        by_cases hk : e - b = 0
        · rw [hk]
          simp
        · have hbound : b + (e - b) ≤ ind.length := by
            have hm := hpos (b + (e - b) - 1) (by
              simp only [leafPositions]
              rw [List.mem_range'_1]
              omega)
            omega
          rw [map_getD_range'_slice ind b (e - b) hbound]
          rfl
      rw [hcov]
  | branch split dim l r ihl ihr =>
    intro s hb hd hpos
    simp only [boundOk] at hb
    simp only [dimsOk] at hd
    obtain ⟨hbl, hbr, hbL, hbR⟩ := hb
    obtain ⟨hdim, hdl, hdr⟩ := hd
    have hposL : ∀ p ∈ leafPositions l, p < ind.length := fun p hp =>
      hpos p (by simp only [leafPositions, List.mem_append]; exact Or.inl hp)
    have hposR : ∀ p ∈ leafPositions r, p < ind.length := fun p hp =>
      hpos p (by simp only [leafPositions, List.mem_append]; exact Or.inr hp)
    have hreach : reachIds ind (Node.branch split dim l r) =
        reachIds ind l ++ reachIds ind r := by
      unfold reachIds
      simp only [leafPositions, List.map_append]
    simp only [searchNode]
    by_cases hv : qcoord q dim ≤ split
    · rw [if_pos hv]
      obtain ⟨outL, eL, pL⟩ := ihl s hbL hdl hposL
      by_cases hprune : (radiusVisitor radius).maxB
          (searchNode (radiusVisitor radius) pts dims q ind l s) >
          (((qcoord q dim - split) * (qcoord q dim - split) : Int) :
            WithTop Int)
      · rw [if_pos hprune]
        obtain ⟨outR, eR, pR⟩ := ihr
          (searchNode (radiusVisitor radius) pts dims q ind l s) hbR hdr hposR
        refine ⟨outL ++ outR, ?_, ?_⟩
        · rw [eR, eL, List.append_assoc]
        · rw [hreach, List.filter_append, List.map_append]
          exact pL.append pR
      · rw [if_neg hprune]
        refine ⟨outL, eL, ?_⟩
        rw [hreach, List.filter_append, List.map_append]
        have hnone : (reachIds ind r).filter
            (fun i => metricL2 pts dims q i < radius) = [] := by
          rw [List.filter_eq_nil_iff]
          intro i hi
          simp only [decide_eq_true_eq]
          intro hlt
          apply hprune
          show ((radius : Int) : WithTop Int) >
            (((qcoord q dim - split) * (qcoord q dim - split) : Int) :
              WithTop Int)
          rw [gt_iff_lt, WithTop.coe_lt_coe]
          obtain ⟨p, hp, rfl⟩ := List.mem_map.mp hi
          have hcoord := hbr p hp
          have hterm := metric_term_le pts dims q (ind.getD p 0) dim hdim
          have hsq := sq_le_far_right hv hcoord
          linarith
        rw [hnone]
        simpa using pL
    · rw [if_neg hv]
      obtain ⟨outR, eR, pR⟩ := ihr s hbR hdr hposR
      by_cases hprune : (radiusVisitor radius).maxB
          (searchNode (radiusVisitor radius) pts dims q ind r s) >
          (((qcoord q dim - split) * (qcoord q dim - split) : Int) :
            WithTop Int)
      · rw [if_pos hprune]
        obtain ⟨outL, eL, pL⟩ := ihl
          (searchNode (radiusVisitor radius) pts dims q ind r s) hbL hdl hposL
        refine ⟨outR ++ outL, ?_, ?_⟩
        · rw [eL, eR, List.append_assoc]
        · rw [hreach, List.filter_append, List.map_append]
          exact (pR.append pL).trans (List.perm_append_comm)
      · rw [if_neg hprune]
        refine ⟨outR, eR, ?_⟩
        rw [hreach, List.filter_append, List.map_append]
        have hnone : (reachIds ind l).filter
            (fun i => metricL2 pts dims q i < radius) = [] := by
          rw [List.filter_eq_nil_iff]
          intro i hi
          simp only [decide_eq_true_eq]
          intro hlt
          apply hprune
          show ((radius : Int) : WithTop Int) >
            (((qcoord q dim - split) * (qcoord q dim - split) : Int) :
              WithTop Int)
          rw [gt_iff_lt, WithTop.coe_lt_coe]
          obtain ⟨p, hp, rfl⟩ := List.mem_map.mp hi
          have hcoord := hbl p hp
          have hterm := metric_term_le pts dims q (ind.getD p 0) dim hdim
          have hsq := sq_le_far_left (v := qcoord q dim) hcoord (by omega)
          linarith
        rw [hnone]
        simpa using pR

theorem insertSortedLoop_length (idx : Nat) (d : WithTop Int) :
    ∀ (m : Nat) (A : List (Nat × WithTop Int)),
      (insertSortedLoop idx d A m).length = A.length := by
  intro m
  induction m with
  | zero => intro A; simp [insertSortedLoop]
  | succ i ih =>
    intro A
    simp only [insertSortedLoop]
    split
    · rw [ih, List.length_set]
    · rw [List.length_set]

theorem insertSortedLoop_frame (idx : Nat) (d : WithTop Int) :
    ∀ (m : Nat) (A : List (Nat × WithTop Int)) (p : Nat), m < p →
      (insertSortedLoop idx d A m)[p]? = A[p]? := by
  intro m
  induction m with
  | zero =>
    intro A p hp
    simp only [insertSortedLoop]
    exact List.getElem?_set_ne (by omega)
  | succ i ih =>
    intro A p hp
    simp only [insertSortedLoop]
    split
    · rw [ih (A.set (i + 1) (A.getD i (0, 0))) p (by omega),
        List.getElem?_set_ne (by omega)]
    · exact List.getElem?_set_ne (by omega)

/-- The loop `InsertSorted` reads only strictly below its loop start and writes only
at or below it: on two vectors agreeing below the loop start it produces
vectors agreeing up to and including it. -/
theorem insertSortedLoop_agree (idx : Nat) (d : WithTop Int) :
    ∀ (m : Nat) (A B : List (Nat × WithTop Int)),
      m < A.length → m < B.length →
      (∀ p, p < m → A[p]? = B[p]?) →
      ∀ p, p ≤ m →
        (insertSortedLoop idx d A m)[p]? = (insertSortedLoop idx d B m)[p]? := by
  intro m
  induction m with
  | zero =>
    intro A B hA hB _ p hp
    have hp0 : p = 0 := by omega
    subst hp0
    simp only [insertSortedLoop]
    rw [List.getElem?_set_self hA, List.getElem?_set_self hB]
  | succ i ih =>
    intro A B hA hB hagree p hp
    have hgi : A[i]? = B[i]? := hagree i (by omega)
    have hgdi : A.getD i (0, 0) = B.getD i (0, 0) := by
      rw [List.getD_eq_getElem?_getD, List.getD_eq_getElem?_getD, hgi]
    simp only [insertSortedLoop]
    by_cases hc : (A.getD i (0, 0)).2 > d
    · rw [if_pos hc, if_pos (by rw [← hgdi]; exact hc)]
      rcases Nat.lt_or_ge p (i + 1) with hpi | hpi
      · apply ih
        · rw [List.length_set]; omega
        · rw [List.length_set]; omega
        · intro p2 hp2
          rw [List.getElem?_set_ne (by omega), List.getElem?_set_ne (by omega)]
          exact hagree p2 (by omega)
        · omega
      · have hp1 : p = i + 1 := by omega
        subst hp1
        rw [insertSortedLoop_frame idx d i _ (i + 1) (by omega),
          insertSortedLoop_frame idx d i _ (i + 1) (by omega)]
        rw [List.getElem?_set_self (by omega : i + 1 < A.length),
          List.getElem?_set_self (by omega : i + 1 < B.length), hgdi]
    · rw [if_neg hc, if_neg (by rw [← hgdi]; exact hc)]
      rcases Nat.lt_or_ge p (i + 1) with hpi | hpi
      · rw [List.getElem?_set_ne (by omega), List.getElem?_set_ne (by omega)]
        exact hagree p (by omega)
      · have hp1 : p = i + 1 := by omega
        subst hp1
        rw [List.getElem?_set_self (by omega : i + 1 < A.length),
          List.getElem?_set_self (by omega : i + 1 < B.length)]

theorem knnVisit_count (k : Nat) (s : KnnState) (idx : Nat) (d : Int) :
    (knnVisit k s idx d).count =
      if s.count < k then s.count + 1 else s.count := rfl

theorem knnVisit_knn (k : Nat) (s : KnnState) (idx : Nat) (d : Int) :
    (knnVisit k s idx d).knn = insertSortedLoop idx ((d : Int) : WithTop Int)
      s.knn ((if s.count < k then s.count + 1 else s.count) - 1) := rfl

/-- One `SearchKnn` visit preserves the observable-state equivalence. -/
theorem knnVisit_equiv {k : Nat} (hk : 1 ≤ k) {a b : KnnState}
    (h : knnEquiv k a b) (idx : Nat) (d : Int) :
    knnEquiv k (knnVisit k a idx d) (knnVisit k b idx d) := by
  obtain ⟨hcount, hck, hlenA, hlenB, hagree, hmax⟩ := h
  unfold knnEquiv
  simp only [knnVisit_count, knnVisit_knn]
  rw [← hcount]
  set c := if a.count < k then a.count + 1 else a.count with hc
  have hc_le : c ≤ k := by rw [hc]; split <;> omega
  have hc_ge : 1 ≤ c := by rw [hc]; split <;> omega
  have hcm : c - 1 ≤ a.count := by rw [hc]; split <;> omega
  have hagree' : ∀ p, p < c - 1 → a.knn[p]? = b.knn[p]? := by
    intro p hp
    exact hagree p (by omega)
  refine ⟨rfl, hc_le, ?_, ?_, ?_, ?_⟩
  · rw [insertSortedLoop_length]; exact hlenA
  · rw [insertSortedLoop_length]; exact hlenB
  · intro p hp
    exact insertSortedLoop_agree idx ((d : Int) : WithTop Int) (c - 1)
      a.knn b.knn (by omega) (by omega) hagree' p (by omega)
  · by_cases hck2 : c = k
    · have hag := insertSortedLoop_agree idx ((d : Int) : WithTop Int) (c - 1)
        a.knn b.knn (by omega) (by omega) hagree' (k - 1) (by omega)
      rw [List.getD_eq_getElem?_getD, List.getD_eq_getElem?_getD, hag]
    · rw [List.getD_eq_getElem?_getD, List.getD_eq_getElem?_getD,
        insertSortedLoop_frame idx ((d : Int) : WithTop Int) (c - 1)
          a.knn (k - 1) (by omega),
        insertSortedLoop_frame idx ((d : Int) : WithTop Int) (c - 1)
          b.knn (k - 1) (by omega),
        ← List.getD_eq_getElem?_getD, ← List.getD_eq_getElem?_getD]
      exact hmax

theorem knn_fold_equiv {k : Nat} (hk : 1 ≤ k) (dist : Nat → Int)
    (m : WithTop Int) :
    ∀ (ids : List Nat) {a b : KnnState}, knnEquiv k a b →
      knnEquiv k
        (ids.foldl (fun st idx => if m > ((dist idx : Int) : WithTop Int)
          then knnVisit k st idx (dist idx) else st) a)
        (ids.foldl (fun st idx => if m > ((dist idx : Int) : WithTop Int)
          then knnVisit k st idx (dist idx) else st) b) := by
  intro ids
  induction ids with
  | nil => intro a b h; exact h
  | cons x t ih =>
    intro a b h
    simp only [List.foldl_cons]
    by_cases hcond : m > ((dist x : Int) : WithTop Int)
    · rw [if_pos hcond, if_pos hcond]
      exact ih (knnVisit_equiv hk h x (dist x))
    · rw [if_neg hcond, if_neg hcond]
      exact ih h

theorem visitLeaf_knn_fold (k : Nat) (dist : Nat → Int) (ids : List Nat)
    (s : KnnState) :
    visitLeaf (knnVisitor k) dist ids s =
      ids.foldl (fun st idx =>
        if (s.knn.getD (k - 1) (0, 0)).2 > ((dist idx : Int) : WithTop Int)
        then knnVisit k st idx (dist idx) else st) s := rfl

theorem visitLeaf_knn_equiv {k : Nat} (hk : 1 ≤ k) (dist : Nat → Int)
    (ids : List Nat) {a b : KnnState} (h : knnEquiv k a b) :
    knnEquiv k (visitLeaf (knnVisitor k) dist ids a)
      (visitLeaf (knnVisitor k) dist ids b) := by
  rw [visitLeaf_knn_fold, visitLeaf_knn_fold]
  have hmax := h.2.2.2.2.2
  rw [← hmax]
  exact knn_fold_equiv hk dist _ ids h

theorem knnVisitor_maxB (k : Nat) (s : KnnState) :
    (knnVisitor k).maxB s = (s.knn.getD (k - 1) (0, 0)).2 := rfl

/-- The whole k-nearest traversal preserves the observable-state
equivalence: the search can only see the agreeing part of the two visitor
states, so both runs take the same branches. -/
theorem searchNode_knn_equiv {k : Nat} (hk : 1 ≤ k) (pts : List (List Int))
    (dims : Nat) (q : List Int) (ind : List Nat) :
    ∀ (n : Node) {a b : KnnState}, knnEquiv k a b →
      knnEquiv k (searchNode (knnVisitor k) pts dims q ind n a)
        (searchNode (knnVisitor k) pts dims q ind n b) := by
  intro n
  induction n with
  | leaf bg e =>
    intro a b h
    exact visitLeaf_knn_equiv hk _ _ h
  | branch split dim l r ihl ihr =>
    intro a b h
    simp only [searchNode, knnVisitor_maxB]
    by_cases hv : qcoord q dim ≤ split
    · rw [if_pos hv, if_pos hv]
      have h1 := ihl h
      have hmax1 := h1.2.2.2.2.2
      by_cases hc : ((searchNode (knnVisitor k) pts dims q ind l a).knn.getD
          (k - 1) (0, 0)).2 >
          (((qcoord q dim - split) * (qcoord q dim - split) : Int) :
            WithTop Int)
      · rw [if_pos hc, if_pos (show
            ((searchNode (knnVisitor k) pts dims q ind l b).knn.getD
              (k - 1) (0, 0)).2 >
            (((qcoord q dim - split) * (qcoord q dim - split) : Int) :
              WithTop Int) from by rw [← hmax1]; exact hc)]
        exact ihr h1
      · rw [if_neg hc, if_neg (show ¬
            ((searchNode (knnVisitor k) pts dims q ind l b).knn.getD
              (k - 1) (0, 0)).2 >
            (((qcoord q dim - split) * (qcoord q dim - split) : Int) :
              WithTop Int) from by rw [← hmax1]; exact hc)]
        exact h1
    · rw [if_neg hv, if_neg hv]
      have h1 := ihr h
      have hmax1 := h1.2.2.2.2.2
      by_cases hc : ((searchNode (knnVisitor k) pts dims q ind r a).knn.getD
          (k - 1) (0, 0)).2 >
          (((qcoord q dim - split) * (qcoord q dim - split) : Int) :
            WithTop Int)
      · rw [if_pos hc, if_pos (show
            ((searchNode (knnVisitor k) pts dims q ind r b).knn.getD
              (k - 1) (0, 0)).2 >
            (((qcoord q dim - split) * (qcoord q dim - split) : Int) :
              WithTop Int) from by rw [← hmax1]; exact hc)]
        exact ihl h1
      · rw [if_neg hc, if_neg (show ¬
            ((searchNode (knnVisitor k) pts dims q ind r b).knn.getD
              (k - 1) (0, 0)).2 >
            (((qcoord q dim - split) * (qcoord q dim - split) : Int) :
              WithTop Int) from by rw [← hmax1]; exact hc)]
        exact h1

theorem resizePad_length (prev : List (Nat × WithTop Int)) (k : Nat) :
    (resizePad prev k).length = k := by
  unfold resizePad
  rw [List.length_append, List.length_take, List.length_replicate]
  omega

theorem knnInit_pos (k : Nat) (hk : 1 ≤ k) (prev : List (Nat × WithTop Int)) :
    knnInit k prev = some ((resizePad prev k).set (k - 1)
      (((resizePad prev k).getD (k - 1) (0, 0)).1, (⊤ : WithTop Int))) := by
  simp only [knnInit]
  rw [if_pos ⟨by omega, by rw [resizePad_length]; omega⟩]
  have he : ((k : Int) - 1).toNat = k - 1 := by omega
  rw [he]

theorem getD_set_self (l : List (Nat × WithTop Int)) (i : Nat)
    (v : Nat × WithTop Int) (h : i < l.length) :
    (l.set i v).getD i (0, 0) = v := by
  rw [List.getD_eq_getElem?_getD, List.getElem?_set_self h]
  rfl

/-- The two initial `SearchKnn` visitor states built from any two previous
vector contents are observably equivalent. -/
theorem knnInit_equiv {k : Nat} (hk : 1 ≤ k)
    (p1 p2 : List (Nat × WithTop Int)) :
    knnEquiv k
      ⟨0, (resizePad p1 k).set (k - 1)
        (((resizePad p1 k).getD (k - 1) (0, 0)).1, (⊤ : WithTop Int))⟩
      ⟨0, (resizePad p2 k).set (k - 1)
        (((resizePad p2 k).getD (k - 1) (0, 0)).1, (⊤ : WithTop Int))⟩ := by
  refine ⟨rfl, Nat.zero_le k, ?_, ?_, ?_, ?_⟩
  · show ((resizePad p1 k).set (k - 1) _).length = k
    rw [List.length_set, resizePad_length]
  · show ((resizePad p2 k).set (k - 1) _).length = k
    rw [List.length_set, resizePad_length]
  · intro p hp
    exact absurd hp (Nat.not_lt_zero p)
  · show (((resizePad p1 k).set (k - 1)
        (((resizePad p1 k).getD (k - 1) (0, 0)).1, (⊤ : WithTop Int))).getD
        (k - 1) (0, 0)).2 =
      (((resizePad p2 k).set (k - 1)
        (((resizePad p2 k).getD (k - 1) (0, 0)).1, (⊤ : WithTop Int))).getD
        (k - 1) (0, 0)).2
    rw [getD_set_self _ _ _ (by rw [resizePad_length]; omega),
      getD_set_self _ _ _ (by rw [resizePad_length]; omega)]

/-! ## Claim theorems -/

/-- C4 (amended): for every constructed tree and every branch node, every
point identifier reachable under the left child has
`coordinate[dim] ≤ split`, and every identifier under the right child has
`coordinate[dim] ≥ split` (the strict `>` of the claim fails: the median
element itself lands in the right child with coordinate equal to the
split). -/
theorem construction_partition_nonstrict :
    ∀ (pts : List (List Int)) (dims mls : Nat) (t : KdTree),
      buildKdTree pts dims mls = some t →
      boundOk pts t.indices t.root :=
  fun pts dims mls t h => (buildKdTree_inv pts dims mls t h).2.2.1

theorem construction_partition_nonstrict_witness :
    buildKdTree [[0], [5]] 1 1 =
      some ⟨Node.branch 5 0 (Node.leaf 0 1) (Node.leaf 1 2), [0, 1]⟩ ∧
    boundOk [[0], [5]] [0, 1]
      (Node.branch 5 0 (Node.leaf 0 1) (Node.leaf 1 2)) :=
  ⟨by decide, construction_partition_nonstrict [[0], [5]] 1 1
    ⟨Node.branch 5 0 (Node.leaf 0 1) (Node.leaf 1 2), [0, 1]⟩ (by decide)⟩

/-- C6: for every constructed tree the in-order concatenation of the leaf
position ranges is exactly `[0, N)` — every position of the index
permutation is covered by exactly one leaf — and the identifiers read from
those positions are a permutation of `{0, …, N-1}`. -/
theorem leaves_cover_all_identifiers :
    ∀ (pts : List (List Int)) (dims mls : Nat) (t : KdTree),
      buildKdTree pts dims mls = some t →
      leafPositions t.root = List.range' 0 pts.length ∧
      (reachIds t.indices t.root).Perm (List.range pts.length) := by
  intro pts dims mls t h
  obtain ⟨h1, h2, _h3, _h4, _h5⟩ := buildKdTree_inv pts dims mls t h
  refine ⟨h2, ?_⟩
  have hperm : t.indices.Perm (List.range pts.length) :=
    rangePerm_full_perm h1 (by rw [List.length_range])
  have hlen : t.indices.length = pts.length := by
    have hx := h1.1
    rw [List.length_range] at hx
    omega
  unfold reachIds
  rw [h2, map_getD_range' t.indices pts.length hlen]
  exact hperm

theorem leaves_cover_all_identifiers_witness :
    buildKdTree [[0], [5]] 1 1 =
      some ⟨Node.branch 5 0 (Node.leaf 0 1) (Node.leaf 1 2), [0, 1]⟩ ∧
    leafPositions (Node.branch 5 0 (Node.leaf 0 1) (Node.leaf 1 2)) =
      List.range' 0 2 ∧
    (reachIds [0, 1]
      (Node.branch 5 0 (Node.leaf 0 1) (Node.leaf 1 2))).Perm
      (List.range 2) :=
  ⟨by decide,
   leaves_cover_all_identifiers [[0], [5]] 1 1
     ⟨Node.branch 5 0 (Node.leaf 0 1) (Node.leaf 1 2), [0, 1]⟩ (by decide)⟩

/-- C5: for every constructed tree (positive dimension count, as the point
adapter contract requires) and every query and squared radius,
`SearchRadius` returns exactly the identifiers at metric distance strictly
below the radius, each paired with its distance — a permutation of the
brute-force filter.  The radius visitor's bound is the constant radius, so
the stale leaf snapshot of C1-C3 is harmless here. -/
theorem searchRadius_exact :
    ∀ (pts : List (List Int)) (dims mls : Nat) (t : KdTree) (q : List Int)
      (radius : Int) (prev : List (Nat × Int)),
      0 < dims → buildKdTree pts dims mls = some t →
      (searchRadius pts dims t q radius prev).Perm
        (bruteRadius pts dims q radius) := by
  intro pts dims mls t q radius prev hdims h
  obtain ⟨h1, h2, h3, h4, _h5⟩ := buildKdTree_inv pts dims mls t h
  have hlen : t.indices.length = pts.length := by
    have hx := h1.1
    rw [List.length_range] at hx
    omega
  have hpos : ∀ p ∈ leafPositions t.root, p < t.indices.length := by
    intro p hp
    rw [h2, List.mem_range'_1] at hp
    omega
  obtain ⟨out, he, hperm⟩ := searchNode_radius pts dims q t.indices radius
    t.root [] h3 (h4 hdims) hpos
  unfold searchRadius
  rw [he]
  simp only [List.nil_append]
  refine hperm.trans ?_
  have hre : reachIds t.indices t.root = t.indices := by
    unfold reachIds
    rw [h2, map_getD_range' t.indices pts.length hlen]
  rw [hre]
  unfold bruteRadius
  exact ((rangePerm_full_perm h1 (by rw [List.length_range])).filter _).map _

theorem searchRadius_exact_witness :
    0 < 1 ∧
    buildKdTree [[0], [10]] 1 1 =
      some ⟨Node.branch 10 0 (Node.leaf 0 1) (Node.leaf 1 2), [0, 1]⟩ ∧
    (searchRadius [[0], [10]] 1
      ⟨Node.branch 10 0 (Node.leaf 0 1) (Node.leaf 1 2), [0, 1]⟩
      [0] 5 [(7, 7)]).Perm (bruteRadius [[0], [10]] 1 [0] 5) :=
  ⟨by decide, by decide,
   searchRadius_exact [[0], [10]] 1 1
     ⟨Node.branch 10 0 (Node.leaf 0 1) (Node.leaf 1 2), [0, 1]⟩
     [0] 5 [(7, 7)] (by decide) (by decide)⟩

/-- Equivalent `SearchKnn` states produce the same final result vector
after the destructor's `resize(count_)`. -/
theorem knnEquiv_take {k : Nat} {a b : KnnState} (h : knnEquiv k a b) :
    a.knn.take a.count = b.knn.take b.count := by
  obtain ⟨hcount, _, _, _, hagree, _⟩ := h
  rw [← hcount]
  apply List.ext_getElem?
  intro p
  rw [List.getElem?_take, List.getElem?_take]
  by_cases hp : p < a.count
  · rw [if_pos hp, if_pos hp]
    exact hagree p hp
  · rw [if_neg hp, if_neg hp]

/-- C10: `SearchKnn` (for a valid `k ≥ 1`) and `SearchRadius` discard any
previous contents of the caller-supplied result vector: for any two prior
contents the results coincide.  `SearchRadius` clears the vector on entry;
`SearchKnn` resizes it to `k`, overwrites the sentinel entry, and the
search reads only entries it has itself written. -/
theorem queries_discard_previous_contents :
    ∀ (pts : List (List Int)) (dims : Nat) (t : KdTree) (q : List Int)
      (k : Nat) (p1 p2 : List (Nat × WithTop Int)) (radius : Int)
      (r1 r2 : List (Nat × Int)),
      1 ≤ k →
      searchKnn pts dims t q k p1 = searchKnn pts dims t q k p2 ∧
      searchRadius pts dims t q radius r1 =
        searchRadius pts dims t q radius r2 := by
  intro pts dims t q k p1 p2 radius r1 r2 hk
  refine ⟨?_, rfl⟩
  unfold searchKnn
  rw [knnInit_pos k hk p1, knnInit_pos k hk p2]
  have hequiv := searchNode_knn_equiv hk pts dims q t.indices t.root
    (knnInit_equiv hk p1 p2)
  exact congrArg some (knnEquiv_take hequiv)

theorem queries_discard_previous_contents_witness :
    1 ≤ 1 ∧
    searchKnn [[0], [10]] 1
      ⟨Node.branch 10 0 (Node.leaf 0 1) (Node.leaf 1 2), [0, 1]⟩
      [0] 1 [(5, 5)] =
    searchKnn [[0], [10]] 1
      ⟨Node.branch 10 0 (Node.leaf 0 1) (Node.leaf 1 2), [0, 1]⟩
      [0] 1 [] ∧
    searchRadius [[0], [10]] 1
      ⟨Node.branch 10 0 (Node.leaf 0 1) (Node.leaf 1 2), [0, 1]⟩
      [0] 5 [(9, 9)] =
    searchRadius [[0], [10]] 1
      ⟨Node.branch 10 0 (Node.leaf 0 1) (Node.leaf 1 2), [0, 1]⟩
      [0] 5 [] :=
  ⟨le_refl 1,
   (queries_discard_previous_contents [[0], [10]] 1
     ⟨Node.branch 10 0 (Node.leaf 0 1) (Node.leaf 1 2), [0, 1]⟩
     [0] 1 [(5, 5)] [] 5 [(9, 9)] [] (le_refl 1)).1,
   (queries_discard_previous_contents [[0], [10]] 1
     ⟨Node.branch 10 0 (Node.leaf 0 1) (Node.leaf 1 2), [0, 1]⟩
     [0] 1 [(5, 5)] [] 5 [(9, 9)] [] (le_refl 1)).2⟩

/-- C1: the claim says `FindNearest` returns the minimum distance over all
indexed points.  Code bug: the leaf loop compares against the bound captured
before the loop and `SearchNn::operator()` overwrites unconditionally, so on
the 1-d points `{0, 10}` in a single leaf (`max_leaf_size = 2`) the query
`0` returns identifier 1 at distance 100, while the true minimum is 0. -/
theorem searchNn_returns_nonminimal_distance :
    buildKdTree [[0], [10]] 1 2 = some ⟨Node.leaf 0 2, [0, 1]⟩ ∧
    searchNn [[0], [10]] 1 ⟨Node.leaf 0 2, [0, 1]⟩ [0] =
      (1, (100 : WithTop Int)) ∧
    (bruteDistances [[0], [10]] 1 [0]).min? = some 0 := by
  decide

/-- C2: the claim says `FindKNearest` returns the `k` smallest distances.
Code bug: with the same two points in one leaf and `k = 1`, the farther
point replaces the nearer one inside `InsertSorted` because the stale leaf
bound admits it, so the query returns `[(1, 100)]` while the brute-force
1-nearest list is `[(0, 0)]`. -/
theorem searchKnn_returns_nonminimal_set :
    buildKdTree [[0], [10]] 1 2 = some ⟨Node.leaf 0 2, [0, 1]⟩ ∧
    searchKnn [[0], [10]] 1 ⟨Node.leaf 0 2, [0, 1]⟩ [0] 1 [] =
      some [(1, (100 : WithTop Int))] ∧
    bruteKnn [[0], [10]] 1 [0] 1 = [(0, 0)] := by
  decide

/-- C3: the claim says a leaf point is reported iff its distance is below
the accumulator's bound at the moment the point is examined.  Code bug: the
bound is captured once at leaf entry, so in the run of C1's input the second
point (distance 100) is examined while the current bound is 0 and is
nevertheless reported. -/
theorem leaf_reports_against_stale_bound :
    (visitLeafTrace nnVisitor (metricL2 [[0], [10]] 1 [0]) [0, 1] ⟨0, ⊤⟩).1 =
      visitLeaf nnVisitor (metricL2 [[0], [10]] 1 [0]) [0, 1] ⟨0, ⊤⟩ ∧
    (visitLeafTrace nnVisitor (metricL2 [[0], [10]] 1 [0]) [0, 1] ⟨0, ⊤⟩).2 =
      [⟨0, 0, ⊤, true⟩, ⟨1, 100, ((0 : Int) : WithTop Int), true⟩] ∧
    ¬ reportedIffCurrentBound
        (visitLeafTrace nnVisitor (metricL2 [[0], [10]] 1 [0]) [0, 1]
          ⟨0, ⊤⟩).2 := by
  decide

/-- C4 counterexample: the split element itself is placed in the right
child with coordinate equal to the split value, so the strict inequality of
the claim fails already for the 1-d points `{0, 5}` with
`max_leaf_size = 1`. -/
theorem strictBoundOk_fails :
    buildKdTree [[0], [5]] 1 1 =
      some ⟨Node.branch 5 0 (Node.leaf 0 1) (Node.leaf 1 2), [0, 1]⟩ ∧
    ¬ strictBoundOk [[0], [5]] [0, 1]
        (Node.branch 5 0 (Node.leaf 0 1) (Node.leaf 1 2)) := by
  decide

/-- C7: the claim says construction fails/aborts when `max_leaf_size < 1`.
Code bug: nothing validates `max_leaf_size`; with one point and
`max_leaf_size = 0` the recursion of `SplitIndices` never terminates (it
returns `none` for every fuel value), rather than signalling the violated
precondition.  The empty-set half of the claim does hold via the
constructor's assert, included as the last conjunct. -/
theorem construction_leaf_size_not_validated :
    (∀ fuel : Nat, splitIndicesF [[0]] 1 0 fuel 0 1 0 [0] = none) ∧
    (∀ fuel : Nat, makeTree [[0]] 1 0 fuel = none) ∧
    buildKdTree [[0]] 1 0 = none ∧
    buildKdTree [] 1 1 = none := by
  refine ⟨splitIndicesF_mls_zero_diverges, ?_, ?_, by decide⟩
  · intro fuel
    have h : makeTree [[0]] 1 0 fuel = splitIndicesF [[0]] 1 0 fuel 0 1 0 [0] := rfl
    rw [h]
    exact splitIndicesF_mls_zero_diverges fuel
  · have h : buildKdTree [[0]] 1 0 =
        (match splitIndicesF [[0]] 1 0 2 0 1 0 [0] with
         | none => none
         | some (n, ind) =>
             if (1 : Nat) > 0 then some (⟨n, ind⟩ : KdTree) else none) := rfl
    rw [h, splitIndicesF_mls_zero_diverges 2]

/-- C8: the claim says a `k = 0` k-nearest query is rejected at entry
before touching result storage.  Code bug: there is no validation; the
`SearchKnn` constructor first resizes the caller's vector to size 0 and
then writes `knn_[k_ - 1] = knn_[-1]`, an out-of-bounds access (undefined
behaviour), modelled as the failing `knnInit`. -/
theorem searchKnn_zero_k_unvalidated :
    ∀ (pts : List (List Int)) (dims : Nat) (t : KdTree) (q : List Int)
      (prev : List (Nat × WithTop Int)),
      resizePad prev 0 = [] ∧ knnInit 0 prev = none ∧
      searchKnn pts dims t q 0 prev = none := by
  intro pts dims t q prev
  have hr : resizePad prev 0 = [] := by simp [resizePad]
  have hi : knnInit 0 prev = none := by
    simp [knnInit, hr]
  refine ⟨hr, hi, ?_⟩
  simp [searchKnn, hi]

/-- C9: every query leaves the dimension count, the index permutation and
the tree (hence the node arena's live contents) of the constructed index
unchanged: each query, written as a state transformer, returns the state it
was given. -/
theorem queries_leave_index_unchanged :
    ∀ (pts : List (List Int)) (st : KdTreeState) (q : List Int) (k : Nat)
      (prev : List (Nat × WithTop Int)) (radius : Int)
      (rprev : List (Nat × Int)),
      (searchNnQuery pts st q).2 = st ∧
      (searchKnnQuery pts st q k prev).2 = st ∧
      (searchRadiusQuery pts st q radius rprev).2 = st := by
  intro pts st q k prev radius rprev
  exact ⟨rfl, rfl, rfl⟩

end NanoTree
